import Mathlib

/-!
Verification of the serial check-weighing sketch `src/SerialWeight.ino`.

The sketch is embedded shallowly:

* `checkWeigh` models the LED-driving classifier (lines 64-83), with the
  digital pin state as a function `Nat → Bool` and `digitalWrite` as a
  pointwise update; `classify` abstracts the same branch structure to the
  signalled state.
* `updateBar` models the capacity-bar renderer (lines 86-95); `roundC` is
  the C `round`, rounding halves away from zero.
* `displayString` models the first-row presenter (lines 52-61).
* `parseWeight` models the libc `atof` call of line 118 (see its doc
  comment: that function is not part of the repository).
* `LAState`, `step` and `runFrom` model the byte-at-a-time line assembler
  of `loop` (lines 109-130).  The 42-byte global `receivedStr` occupies
  the start of an idealized flat memory (`mem`); a write one slot past the
  array extends the list and a read past it yields the zero-initialized
  value, while every index the C code touches is recorded in `accessed`,
  so an access at an index `i` with `42 ≤ i` is an access outside the
  bounds of the array.  `size_t` on the AVR target is 16 bits wide, hence
  the `% 65536` in the model of the `strlen(receivedStr) - 1` index.

Weights are modelled as `ℚ`: every comparison and example value in the
sketch is exactly representable, so the float/rational distinction does
not affect any of the stated properties.
-/

namespace SerialWeight

/-- The NUL string terminator byte. -/
def nul : Char := Char.ofNat 0

/-- The line-feed byte, written `'\n'` in the sketch. -/
def lf : Char := Char.ofNat 10

/-- The carriage-return byte, written `'\r'` in the sketch. -/
def cr : Char := Char.ofNat 13

/-- `const int maxChars = 42` (line 36): buffer capacity in bytes. -/
def maxChars : Nat := 42

/-- `const float loLimit = 4990` (line 41). -/
def loLimit : ℚ := 4990

/-- `const float hiLimit = 5010` (line 42). -/
def hiLimit : ℚ := 5010

/-- `const int maxWeight = 6200` (line 48). -/
def maxWeight : ℚ := 6200

/-- `const int pinHiLed = 50` (line 43). -/
def pinHiLed : Nat := 50

/-- `const int pinOkLed = 48` (line 44). -/
def pinOkLed : Nat := 48

/-- `const int pinLoLed = 46` (line 45). -/
def pinLoLed : Nat := 46

/-- Model of `digitalWrite(pin, level)` acting on a pin-state map. -/
def digitalWrite (pins : Nat → Bool) (pin : Nat) (level : Bool) : Nat → Bool :=
  fun p => if p = pin then level else pins p

/-- Model of `checkWeigh` (lines 64-83): three `digitalWrite` calls per
branch, applied to the previous pin state. -/
def checkWeigh (weight : ℚ) (pins : Nat → Bool) : Nat → Bool :=
  if weight < loLimit then
    digitalWrite (digitalWrite (digitalWrite pins pinHiLed false) pinOkLed false) pinLoLed true
  else if hiLimit < weight then
    digitalWrite (digitalWrite (digitalWrite pins pinHiLed true) pinOkLed false) pinLoLed false
  else
    digitalWrite (digitalWrite (digitalWrite pins pinHiLed false) pinOkLed true) pinLoLed false

/-- The three mutually exclusive check-weighing states. -/
inductive OutputState where
  | Low
  | Ok
  | High
deriving DecidableEq, Repr

/-- The branch structure of `checkWeigh` (lines 64-83), abstracted to the
state it signals on the LEDs. -/
def classify (weight : ℚ) : OutputState :=
  if weight < loLimit then OutputState.Low
  else if hiLimit < weight then OutputState.High
  else OutputState.Ok

/-- The C library `round`: round to nearest, halves away from zero. -/
def roundC (q : ℚ) : ℤ := if q < 0 then -round (-q) else round q

/-- Model of `updateBar` (lines 86-95): the 16 characters written to the
second row, `'='` for a filled cell, `' '` for an empty one.  Cell `i` is
filled exactly when `i < round(weight / maxWeight * 16)`. -/
def updateBar (weight : ℚ) : List Char :=
  (List.range 16).map
    (fun (i : Nat) => if (i : ℤ) < roundC (weight / maxWeight * 16) then '=' else ' ')

/-- Model of `displayString` (lines 52-61): the 16 characters written to
the first row, the text's character for `i < strlen(str)` and a space
fill beyond it. -/
def displayString (str : List Char) : List Char :=
  (List.range 16).map
    (fun i => if h : i < str.length then str.get ⟨i, h⟩ else ' ')

/-- ASCII decimal digit test. -/
def isDigitCh (c : Char) : Bool := decide ('0' ≤ c) && decide (c ≤ '9')

/-- Split the longest run of leading decimal digits from the rest. -/
def takeDigits : List Char → List Char × List Char
  | [] => ([], [])
  | c :: rest =>
    if isDigitCh c then (c :: (takeDigits rest).1, (takeDigits rest).2)
    else ([], c :: rest)

/-- Numeric value of a digit character. -/
def digitVal (c : Char) : ℚ := ((c.toNat - 48 : Nat) : ℚ)

/-- Value of a digit run read as an integer part. -/
def intVal (ds : List Char) : ℚ := ds.foldl (fun acc c => acc * 10 + digitVal c) 0

/-- Value of a digit run read as a fractional part. -/
def fracVal (fs : List Char) : ℚ := fs.foldr (fun c acc => (digitVal c + acc) / 10) 0

/-- Leading optional sign: whether the value is negated, and the rest. -/
def splitSign (s : List Char) : Bool × List Char :=
  match s with
  | [] => (false, [])
  | c :: r =>
    if c = '-' then (true, r)
    else if c = '+' then (false, r)
    else (false, c :: r)

/-- Modelled from the spec: the numeric conversion `atof(receivedStr)` at
line 118 comes from avr-libc, which is not part of this repository.
Following spec section 4.2 (WeightParser): a leading optional sign,
digits, an optional decimal point and fractional digits; trailing
non-numeric content ignored; 0.0 when no valid numeric prefix exists,
with no error signalled (the function is total). -/
def parseWeight (s : List Char) : ℚ :=
  let neg := (splitSign s).1
  let s1 := (splitSign s).2
  let ds := (takeDigits s1).1
  let s2 := (takeDigits s1).2
  let fs := if s2.head? = some '.' then (takeDigits s2.tail).1 else []
  if ds = [] ∧ fs = [] then 0
  else (if neg then (-1 : ℚ) else 1) * (intVal ds + fracVal fs)

/-- Whether the text starts with a decimal digit. -/
def headDigit (s : List Char) : Bool :=
  match s with
  | [] => false
  | d :: _ => isDigitCh d

/-- Modelled from the spec: "a valid numeric prefix exists" means the
text begins, after an optional sign, with a digit or with a decimal point
followed by a digit. -/
def startsNumeric (s : List Char) : Bool :=
  match s with
  | [] => false
  | c :: rest => isDigitCh c || ((c == '.') && headDigit rest)

/-- Whether a valid numeric prefix exists after the optional sign. -/
def numericStart (s : List Char) : Bool := startsNumeric (splitSign s).2

/-- The assembler state: the flat memory starting at `receivedStr`
(index 0) and the counter `numCharsReceived`. -/
structure LAState where
  mem : List Char
  num : Nat
deriving DecidableEq, Repr

/-- The state at power-up: globals are zero-initialized, so the 42 array
bytes are NUL and the counter is 0 (lines 37-38). -/
def la_init : LAState := ⟨List.replicate maxChars nul, 0⟩

/-- A store to flat memory.  A write one slot past the current extent
extends it (the idealized cell adjacent to the array); the `accessed`
trace, not this function, is what decides whether an access was within
the 42-byte array. -/
def memWrite (m : List Char) (i : Nat) (v : Char) : List Char :=
  if i < m.length then m.set i v
  else if i = m.length then m ++ [v]
  else m

/-- `strlen` on the flat memory: distance to the first NUL, with memory
past the modelled extent reading as zero-initialized. -/
def cStrLen : List Char → Nat
  | [] => 0
  | c :: rest => if c = nul then 0 else cStrLen rest + 1

/-- The C string held in the buffer: the bytes before the first NUL. -/
def cStr (m : List Char) : List Char := m.take (cStrLen m)

/-- Result of feeding one byte: successor state, the completed line when
one was emitted, and the indices of `receivedStr` the code accessed. -/
structure StepOut where
  state : LAState
  emitted : Option (List Char)
  accessed : List Nat
deriving DecidableEq, Repr

/-- The finalization block (lines 114-122): strip a trailing `'\r'` found
at index `strlen(receivedStr) - 1` (computed in 16-bit `size_t`), emit the
buffered C string, and reset by writing NUL at index 0.  Returns the
emitted line, the new memory and the accessed indices (the `strlen` scan
reads indices `0..len`, then index `idx` is read for the `'\r'` test and
index 0 is written by the reset). -/
def finalizeBuf (m : List Char) : List Char × List Char × List Nat :=
  let len := cStrLen m
  let idx := (len + 65535) % 65536
  let m1 := if m.getD idx nul = cr then memWrite m idx nul else m
  (cStr m1, memWrite m1 0 nul, List.range (len + 1) ++ [idx, 0])

/-- One iteration of the receive loop body for one byte `c`
(lines 112-128): finalize when `c == '\n'` or the counter has reached
`maxChars`, otherwise append `c` and a NUL terminator. -/
def step (s : LAState) (c : Char) : StepOut :=
  if c = lf ∨ s.num = maxChars then
    { state := { mem := (finalizeBuf s.mem).2.1, num := 0 },
      emitted := some (finalizeBuf s.mem).1,
      accessed := (finalizeBuf s.mem).2.2 }
  else
    { state := { mem := memWrite (memWrite s.mem s.num c) (s.num + 1) nul, num := s.num + 1 },
      emitted := none,
      accessed := [s.num, s.num + 1] }

/-- Result of feeding a byte sequence: final state, the emitted lines in
order, and all accessed indices. -/
structure RunOut where
  state : LAState
  lines : List (List Char)
  accessed : List Nat
deriving DecidableEq, Repr

/-- Feed a byte sequence from a given state, one `step` per byte. -/
def runFrom (s : LAState) : List Char → RunOut
  | [] => { state := s, lines := [], accessed := [] }
  | c :: rest =>
    { state := (runFrom (step s c).state rest).state,
      lines := (step s c).emitted.toList ++ (runFrom (step s c).state rest).lines,
      accessed := (step s c).accessed ++ (runFrom (step s c).state rest).accessed }

/-- Feed a byte sequence from the power-up state. -/
def run (input : List Char) : RunOut := runFrom la_init input

/-- The per-line processing of lines 117-120: display the raw text,
render the bar and classify, all from the emitted line. -/
def processLine (line : List Char) : List Char × List Char × OutputState :=
  (displayString line, updateBar (parseWeight line), classify (parseWeight line))

/-- The assembler state holding exactly the content bytes `pre`: the rest
of the array is still zero-initialized and the counter is `pre.length`. -/
def goodState (pre : List Char) : LAState :=
  { mem := pre ++ List.replicate (maxChars - pre.length) nul, num := pre.length }

/-- The number of filled cells among `n` rendered cells is the segment
count clamped to `[0, n]`. -/
theorem count_fill_cells (num : ℤ) (n : Nat) :
    ((List.range n).map (fun (i : Nat) => if (i : ℤ) < num then '=' else ' ')).count '=' =
      min num.toNat n := by
  induction n with
  | zero => simp
  | succ n ih =>
    rw [List.range_succ, List.map_append, List.count_append, ih]
    by_cases h : (n : ℤ) < num
    · simp only [List.map_cons, List.map_nil, if_pos h]
      simp [List.count_cons]
      omega
    · simp only [List.map_cons, List.map_nil, if_neg h]
      simp [List.count_cons]
      omega

/-- The bar's filled-cell count, as a function of the weight. -/
theorem updateBar_count (w : ℚ) :
    (updateBar w).count '=' = min (roundC (w / maxWeight * 16)).toNat 16 := by
  rw [updateBar, count_fill_cells]

/-- C1: for every weight `w`, `classify` returns `Low` exactly when
`w < loLimit`, `High` exactly when `w > hiLimit`, and `Ok` otherwise; in
particular a weight exactly equal to `loLimit` (4990) or exactly equal to
`hiLimit` (5010) is classified `Ok`, not `Low` or `High`. -/
theorem c1_classify_thresholds (w : ℚ) :
    (classify w = OutputState.Low ↔ w < loLimit) ∧
    (classify w = OutputState.High ↔ hiLimit < w) ∧
    (classify w = OutputState.Ok ↔ loLimit ≤ w ∧ w ≤ hiLimit) ∧
    classify loLimit = OutputState.Ok ∧
    classify hiLimit = OutputState.Ok := by
  have hlh : loLimit < hiLimit := by rw [loLimit, hiLimit]; norm_num
  have hOkLo : classify loLimit = OutputState.Ok := by
    rw [classify, if_neg (lt_irrefl loLimit), if_neg (not_lt.mpr hlh.le)]
  have hOkHi : classify hiLimit = OutputState.Ok := by
    rw [classify, if_neg (not_lt.mpr hlh.le), if_neg (lt_irrefl hiLimit)]
  refine ⟨⟨?_, ?_⟩, ⟨?_, ?_⟩, ⟨?_, ?_⟩, hOkLo, hOkHi⟩
  · intro h
    by_contra hw
    rw [classify, if_neg hw] at h
    split_ifs at h
  · intro hw
    rw [classify, if_pos hw]
  · intro h
    rw [classify] at h
    split_ifs at h with h1 h2
    simp_all
  · intro hw
    have h1 : ¬w < loLimit := by linarith
    rw [classify, if_neg h1, if_pos hw]
  · intro h
    rw [classify] at h
    split_ifs at h with h1 h2
    exact ⟨not_lt.mp h1, not_lt.mp h2⟩
  · rintro ⟨ha, hb⟩
    rw [classify, if_neg (not_lt.mpr ha), if_neg (not_lt.mpr hb)]

/-- C5: for every weight, the capacity bar writes exactly 16 cells; cell
`i` is filled exactly when `i < round(weight / maxWeight * 16)`; the
filled-cell count is that segment count clamped to `[0, 16]` (a negative
count fills 0 cells, an oversized one never exceeds 16); weight 0 fills
0 cells, weight 6200 fills all 16, and the over-capacity weight 9999
fills exactly 16. -/
theorem c5_capacity_bar (w : ℚ) :
    (updateBar w).length = 16 ∧
    (∀ i : Fin 16, (updateBar w).getD (i : Nat) ' ' =
      if ((i : Nat) : ℤ) < roundC (w / maxWeight * 16) then '=' else ' ') ∧
    (updateBar w).count '=' = min (roundC (w / maxWeight * 16)).toNat 16 ∧
    (updateBar 0).count '=' = 0 ∧
    (updateBar 6200).count '=' = 16 ∧
    (updateBar 9999).count '=' = 16 := by
  have h0 : roundC ((0 : ℚ) / maxWeight * 16) = 0 := by
    rw [roundC, maxWeight]; norm_num [round_eq, Int.floor_eq_iff]
  have h1 : roundC ((6200 : ℚ) / maxWeight * 16) = 16 := by
    rw [roundC, maxWeight]; norm_num [round_eq, Int.floor_eq_iff]
  have h2 : roundC ((9999 : ℚ) / maxWeight * 16) = 26 := by
    rw [roundC, maxWeight]; norm_num [round_eq, Int.floor_eq_iff]
  refine ⟨by simp [updateBar], ?_, updateBar_count w, ?_, ?_, ?_⟩
  · intro i
    simp [updateBar, List.getD, List.getElem?_map, List.getElem?_range, i.isLt]
  · rw [updateBar_count, h0]; decide
  · rw [updateBar_count, h1]; decide
  · rw [updateBar_count, h2]; decide

/-- C6: on every classification call all three LED outputs are written
and exactly one of them is driven HIGH, independently of any previous
pin state; classifying the same weight twice drives the outputs
identically both times. -/
theorem c6_led_exclusivity (w : ℚ) (pins pins' : Nat → Bool) :
    ((checkWeigh w pins pinLoLed, checkWeigh w pins pinOkLed, checkWeigh w pins pinHiLed) =
        (true, false, false) ∨
      (checkWeigh w pins pinLoLed, checkWeigh w pins pinOkLed, checkWeigh w pins pinHiLed) =
        (false, true, false) ∨
      (checkWeigh w pins pinLoLed, checkWeigh w pins pinOkLed, checkWeigh w pins pinHiLed) =
        (false, false, true)) ∧
    (checkWeigh w pins pinLoLed = checkWeigh w pins' pinLoLed ∧
      checkWeigh w pins pinOkLed = checkWeigh w pins' pinOkLed ∧
      checkWeigh w pins pinHiLed = checkWeigh w pins' pinHiLed) ∧
    (checkWeigh w (checkWeigh w pins) pinLoLed = checkWeigh w pins pinLoLed ∧
      checkWeigh w (checkWeigh w pins) pinOkLed = checkWeigh w pins pinOkLed ∧
      checkWeigh w (checkWeigh w pins) pinHiLed = checkWeigh w pins pinHiLed) := by
  simp only [checkWeigh]
  split_ifs <;> simp [digitalWrite, pinLoLed, pinOkLed, pinHiLed]

/-- C7: for every text, the display presenter writes exactly 16
characters: the first `min(len(text), 16)` characters of the text
followed by spaces for the remaining width; presenting `"5000"` writes
`"5000"` followed by 12 spaces. -/
theorem c7_display_row (s : List Char) :
    (displayString s).length = 16 ∧
    displayString s = s.take 16 ++ List.replicate (16 - s.length) ' ' ∧
    displayString ['5', '0', '0', '0'] =
      ['5', '0', '0', '0'] ++ List.replicate 12 ' ' := by
  refine ⟨by simp [displayString], ?_, by decide⟩
  apply List.ext_getElem
  · simp [displayString]
    omega
  · intro n h1 h2
    simp only [displayString, List.getElem_map, List.getElem_range]
    have hn : n < 16 := by simpa [displayString] using h1
    by_cases hs : n < s.length
    · have hts : n < (s.take 16).length := by simp; omega
      rw [List.getElem_append_left hts, List.getElem_take]
      simp [hs]
    · have hts : (s.take 16).length ≤ n := by simp; omega
      rw [List.getElem_append_right hts, List.getElem_replicate]
      simp [hs]

/-- A store at the index right after `l1` overwrites the head of the
tail component. -/
theorem memWrite_at_middle (l1 : List Char) (a : Char) (l2 : List Char) (v : Char) :
    memWrite (l1 ++ a :: l2) l1.length v = l1 ++ v :: l2 := by
  rw [memWrite, if_pos (by simp)]
  rw [List.set_append]
  simp

/-- A load at the index right after `l1` reads the head of the tail
component. -/
theorem getD_at_middle (l1 : List Char) (a : Char) (l2 : List Char) :
    (l1 ++ a :: l2).getD l1.length nul = a := by
  induction l1 with
  | nil => rfl
  | cons b t ih =>
    rw [List.cons_append, List.length_cons, List.getD_cons_succ]
    exact ih

/-- `strlen` of a NUL-free prefix followed by a NUL terminator. -/
theorem cStrLen_append_nul (bs t : List Char) (h : ∀ b ∈ bs, b ≠ nul) :
    cStrLen (bs ++ nul :: t) = bs.length := by
  induction bs with
  | nil => simp [cStrLen]
  | cons c rest ih =>
    have hc : c ≠ nul := h c (List.mem_cons_self c rest)
    simp only [List.cons_append, cStrLen, if_neg hc, List.length_cons, List.append_eq]
    rw [ih (fun b hb => h b (List.mem_cons_of_mem c hb))]

/-- After the reset store of NUL at index 0, the buffered C string is
empty. -/
theorem cStrLen_memWrite_zero (m : List Char) : cStrLen (memWrite m 0 nul) = 0 := by
  cases m with
  | nil => decide
  | cons a t => simp [memWrite, cStrLen]

/-- Splitting the first remaining NUL off a clean buffer. -/
theorem goodState_mem (pre : List Char) (h : pre.length ≤ 41) :
    (goodState pre).mem = pre ++ nul :: List.replicate (41 - pre.length) nul := by
  have h2 : maxChars - pre.length = (41 - pre.length) + 1 := by rw [maxChars]; omega
  simp only [goodState]
  rw [h2, List.replicate_succ]

/-- Feeding a non-terminator byte to a clean buffer with room appends it
and keeps the buffer clean. -/
theorem step_append (pre : List Char) (c : Char) (hc : c ≠ lf) (hlen : pre.length ≤ 40) :
    (step (goodState pre) c).state = goodState (pre ++ [c]) ∧
    (step (goodState pre) c).emitted = none := by
  have hcond : ¬(c = lf ∨ (goodState pre).num = maxChars) := by
    simp only [goodState, maxChars]
    push_neg
    exact ⟨hc, by omega⟩
  rw [step, if_neg hcond]
  refine ⟨?_, rfl⟩
  dsimp only
  have hnum : (goodState pre).num = pre.length := rfl
  have hmem := goodState_mem pre (by omega)
  have h40 : 41 - pre.length = (40 - pre.length) + 1 := by omega
  rw [hnum, hmem, memWrite_at_middle, h40, List.replicate_succ]
  have hsplit : pre ++ c :: nul :: List.replicate (40 - pre.length) nul
      = (pre ++ [c]) ++ nul :: List.replicate (40 - pre.length) nul := by
    simp
  rw [hsplit]
  have hlc : pre.length + 1 = (pre ++ [c]).length := by simp
  rw [hlc, memWrite_at_middle]
  have h2 : maxChars - (pre ++ [c]).length = (40 - pre.length) + 1 := by
    simp only [List.length_append, List.length_cons, List.length_nil, maxChars]
    omega
  simp only [goodState, h2, List.replicate_succ]

/-- Feeding a clean sequence of non-terminator bytes that fits in the
buffer accumulates it, emitting nothing. -/
theorem feed_clean (bs : List Char) : ∀ pre : List Char,
    (∀ b ∈ bs, b ≠ lf ∧ b ≠ nul) → pre.length + bs.length ≤ 41 →
    (runFrom (goodState pre) bs).state = goodState (pre ++ bs) ∧
    (runFrom (goodState pre) bs).lines = [] := by
  induction bs with
  | nil =>
    intro pre _ _
    constructor <;> simp [runFrom]
  | cons c rest ih =>
    intro pre hb hlen
    have hc : c ≠ lf := (hb c (List.mem_cons_self c rest)).1
    have hl40 : pre.length ≤ 40 := by
      simp only [List.length_cons] at hlen
      omega
    obtain ⟨hs, he⟩ := step_append pre c hc hl40
    have ih' := ih (pre ++ [c]) (fun b hbb => hb b (List.mem_cons_of_mem c hbb))
      (by simp only [List.length_append, List.length_cons, List.length_nil] at hlen ⊢; omega)
    rw [runFrom]
    dsimp only
    rw [hs, he]
    constructor
    · rw [ih'.1]
      simp
    · simp [ih'.2]

/-- Runs decompose along concatenation of the input. -/
theorem runFrom_append (s : LAState) (xs ys : List Char) :
    (runFrom s (xs ++ ys)).state = (runFrom (runFrom s xs).state ys).state ∧
    (runFrom s (xs ++ ys)).lines =
      (runFrom s xs).lines ++ (runFrom (runFrom s xs).state ys).lines := by
  induction xs generalizing s with
  | nil => simp [runFrom]
  | cons c rest ih =>
    rw [List.cons_append, runFrom]
    dsimp only
    rw [(ih (step s c).state).1, (ih (step s c).state).2]
    rw [runFrom]
    dsimp only
    simp

/-- Finalizing a clean buffer on a line feed emits the buffered text,
with a single trailing carriage-return stripped when present. -/
theorem step_lf_emit (bs : List Char) (hnul : ∀ b ∈ bs, b ≠ nul) (hlen : bs.length ≤ 41) :
    (step (goodState bs) lf).emitted =
      some (if bs.getLast? = some cr then bs.dropLast else bs) := by
  rw [step, if_pos (Or.inl rfl)]
  dsimp only
  rcases List.eq_nil_or_concat bs with hbs | ⟨bs', b, hbs⟩
  · subst hbs
    decide
  · rw [List.concat_eq_append] at hbs
    subst hbs
    have hb : b ≠ nul := hnul b (by simp)
    have hnul' : ∀ x ∈ bs', x ≠ nul := fun x hx => hnul x (by simp [hx])
    have hlen' : bs'.length ≤ 40 := by
      simp only [List.length_append, List.length_cons, List.length_nil] at hlen
      omega
    have hmem := goodState_mem (bs' ++ [b]) hlen
    have hlen2 : (bs' ++ [b]).length = bs'.length + 1 := by simp
    have hstr : cStrLen (goodState (bs' ++ [b])).mem = bs'.length + 1 := by
      rw [hmem, cStrLen_append_nul _ _ hnul, hlen2]
    have hidx : (cStrLen (goodState (bs' ++ [b])).mem + 65535) % 65536 = bs'.length := by
      rw [hstr]
      have : bs'.length + 1 + 65535 = 65536 + bs'.length := by omega
      rw [this, Nat.add_mod_left, Nat.mod_eq_of_lt (by omega)]
    have hshape : (goodState (bs' ++ [b])).mem
        = bs' ++ b :: (nul :: List.replicate (41 - (bs' ++ [b]).length) nul) := by
      rw [hmem]
      simp
    simp only [finalizeBuf]
    rw [hidx, hshape, getD_at_middle]
    by_cases hbcr : b = cr
    · subst hbcr
      rw [if_pos rfl, memWrite_at_middle]
      have hline : cStr (bs' ++ nul :: (nul :: List.replicate (41 - (bs' ++ [cr]).length) nul))
          = bs' := by
        rw [cStr, cStrLen_append_nul _ _ hnul', List.take_left]
      rw [hline]
      rw [List.getLast?_concat, if_pos rfl, List.dropLast_concat]
    · rw [if_neg hbcr]
      have hline : cStr (bs' ++ b :: (nul :: List.replicate (41 - (bs' ++ [b]).length) nul))
          = bs' ++ [b] := by
        have : bs' ++ b :: (nul :: List.replicate (41 - (bs' ++ [b]).length) nul)
            = (bs' ++ [b]) ++ nul :: List.replicate (41 - (bs' ++ [b]).length) nul := by
          simp
        rw [cStr, this, cStrLen_append_nul _ _ hnul, List.take_left]
      rw [hline]
      rw [List.getLast?_concat, if_neg (by simp [hbcr])]

/-- After finalization, the buffered C string is empty. -/
theorem finalize_reset (m : List Char) : cStr (finalizeBuf m).2.1 = [] := by
  simp only [finalizeBuf]
  rw [cStr, cStrLen_memWrite_zero, List.take_zero]

/-- A digit run splits off unchanged when followed by a non-digit. -/
theorem takeDigits_split (ds rest : List Char) (hds : ∀ c ∈ ds, isDigitCh c = true)
    (hrest : headDigit rest = false) :
    takeDigits (ds ++ rest) = (ds, rest) := by
  induction ds with
  | nil =>
    cases rest with
    | nil => rfl
    | cons r t =>
      rw [headDigit] at hrest
      simp [takeDigits, hrest]
  | cons d dt ih =>
    have hd : isDigitCh d = true := hds d (List.mem_cons_self d dt)
    simp [takeDigits, hd, ih (fun c hc => hds c (List.mem_cons_of_mem d hc))]

/-- C4: for a line of at most 41 non-NUL content bytes followed by the
line-feed terminator: if the character immediately before the line feed
is a carriage-return, the emitted line is the buffered text with that
single trailing carriage-return removed; otherwise the emitted line is
the buffered text unchanged. -/
theorem c4_cr_stripping (bs : List Char) (hb : ∀ b ∈ bs, b ≠ lf ∧ b ≠ nul)
    (hlen : bs.length ≤ 41) :
    (run (bs ++ [lf])).lines =
      [if bs.getLast? = some cr then bs.dropLast else bs] := by
  have hinit : la_init = goodState [] := rfl
  have hfeed := feed_clean bs [] hb (by simpa using hlen)
  simp only [List.nil_append] at hfeed
  have happ := (runFrom_append (goodState []) bs [lf]).2
  rw [run, hinit, happ, hfeed.1, hfeed.2]
  have hnul : ∀ b ∈ bs, b ≠ nul := fun b h => (hb b h).2
  simp [runFrom, step_lf_emit bs hnul hlen]

/-- C9: whenever a line is emitted, the successor state (in place before
the next byte is consumed) has an empty buffered string and a character
count of zero. -/
theorem c9_reset_after_emit (s : LAState) (c : Char)
    (h : ((step s c).emitted).isSome = true) :
    (step s c).state.num = 0 ∧ cStr (step s c).state.mem = [] := by
  by_cases hcond : c = lf ∨ s.num = maxChars
  · rw [step, if_pos hcond]
    exact ⟨rfl, finalize_reset s.mem⟩
  · rw [step, if_neg hcond] at h
    simp at h

/-- C10: when finalization is triggered by the character count having
reached the buffer capacity rather than by a line-feed byte, the
triggering byte is discarded: the step equals a line-feed step, the
emitted line is computed from the buffer alone, the same per-line
processing results, and the buffer for the next line is empty. -/
theorem c10_truncation_discard (s : LAState) (c : Char) (_hc : c ≠ lf)
    (hn : s.num = maxChars) :
    step s c = step s lf ∧
    (step s c).emitted = some (finalizeBuf s.mem).1 ∧
    processLine (((step s c).emitted).getD []) =
      processLine (((step s lf).emitted).getD []) ∧
    (step s c).state.num = 0 ∧
    cStr (step s c).state.mem = [] := by
  have h1 : step s c = step s lf := by
    rw [step, step, if_pos (Or.inr hn), if_pos (Or.inl rfl)]
  refine ⟨h1, ?_, by rw [h1], ?_, ?_⟩
  · rw [step, if_pos (Or.inr hn)]
  · rw [step, if_pos (Or.inr hn)]
  · rw [step, if_pos (Or.inr hn)]
    exact finalize_reset s.mem

/-- C2: a line feed arriving with zero buffered characters emits the
empty line, whose parsed weight is 0; but the finalization reads index
65535 — the 16-bit `size_t` value of `strlen(receivedStr) - 1` for the
empty string — an access outside the 42-byte buffer, so the empty-buffer
guard the claim asserts does not exist in the code. -/
theorem c2_empty_line_oob_read :
    (run [lf]).lines = [[]] ∧
    parseWeight [] = 0 ∧
    (run [lf]).accessed.contains 65535 = true ∧
    (run [lf]).accessed.all (fun i => decide (i < maxChars)) = false :=
  ⟨by decide, rfl, by decide, by decide⟩

set_option maxRecDepth 10000 in
/-- C3: the claim fails on the code: feeding 42 non-terminator bytes
makes the append write index 42, one slot past the end of the 42-byte
buffer, and the line emitted afterwards holds 42 content characters,
exceeding the documented maximum of 41. -/
theorem c3_line_length_overflow :
    (run (List.replicate 42 'A')).accessed.contains 42 = true ∧
    (run (List.replicate 42 'A')).accessed.all (fun i => decide (i < maxChars)) = false ∧
    (run (List.replicate 42 'A' ++ ['B'])).lines = [List.replicate 42 'A'] ∧
    ((run (List.replicate 42 'A' ++ ['B'])).lines.headD []).length = 42 :=
  ⟨by decide, by decide, by decide, by decide⟩

/-- A text that does not begin with a number does not begin with a
digit. -/
theorem startsNumeric_false_headDigit (j : List Char) (h : startsNumeric j = false) :
    headDigit j = false := by
  cases j with
  | nil => rfl
  | cons c t =>
    simp only [startsNumeric, Bool.or_eq_false_iff] at h
    rw [headDigit]
    exact h.1

/-- A digit is neither a minus nor a plus sign. -/
theorem digit_not_sign (d : Char) (hd : isDigitCh d = true) : d ≠ '-' ∧ d ≠ '+' := by
  constructor
  · rintro rfl; simp [isDigitCh] at hd
  · rintro rfl; simp [isDigitCh] at hd

/-- Splitting an optional leading sign off a text whose remainder does
not start with a sign character. -/
theorem splitSign_sign (sgn rest : List Char)
    (hsgn : sgn = [] ∨ sgn = ['+'] ∨ sgn = ['-'])
    (hrest : ∀ c ∈ rest.head?, c ≠ '-' ∧ c ≠ '+') :
    splitSign (sgn ++ rest) = (decide (sgn = ['-']), rest) := by
  rcases hsgn with rfl | rfl | rfl
  · cases rest with
    | nil => simp [splitSign]
    | cons c t =>
      have hc := hrest c (by simp)
      simp [splitSign, hc.1, hc.2]
  · simp [splitSign]
  · simp [splitSign]

/-- The parse after the sign has been split, for a numeric prefix with a
decimal point: the trailing junk, which continues with no digit, is
ignored. -/
theorem parse_after_sign_dotted (s0 : List Char) (b : Bool) (ds fs junk : List Char)
    (hsp : splitSign s0 = (b, ds ++ '.' :: (fs ++ junk)))
    (hds : ∀ c ∈ ds, isDigitCh c = true) (hfs : ∀ c ∈ fs, isDigitCh c = true)
    (hne : ds ≠ [] ∨ fs ≠ []) (hjunk : headDigit junk = false) :
    parseWeight s0 = (if b then (-1 : ℚ) else 1) * (intVal ds + fracVal fs) := by
  have hdot : headDigit ('.' :: (fs ++ junk)) = false := by
    rw [headDigit]
    decide
  have h1 : takeDigits (ds ++ '.' :: (fs ++ junk)) = (ds, '.' :: (fs ++ junk)) :=
    takeDigits_split ds _ hds hdot
  have h2 : takeDigits (fs ++ junk) = (fs, junk) := takeDigits_split fs junk hfs hjunk
  have hcond : ¬(ds = [] ∧ fs = []) := by
    rcases hne with h | h
    · exact fun hh => h hh.1
    · exact fun hh => h hh.2
  simp only [parseWeight, hsp]
  rw [h1]
  simp only [List.head?_cons, List.tail_cons, h2, if_true]
  rw [if_neg hcond]

/-- The parse after the sign has been split, for a numeric prefix with
no decimal point: trailing junk that does not continue the number (no
digit, and no decimal point followed by a digit) is ignored. -/
theorem parse_after_sign_plain (s0 : List Char) (b : Bool) (ds junk : List Char)
    (hsp : splitSign s0 = (b, ds ++ junk))
    (hds : ∀ c ∈ ds, isDigitCh c = true) (hne : ds ≠ [])
    (hjunk : startsNumeric junk = false) :
    parseWeight s0 = (if b then (-1 : ℚ) else 1) * intVal ds := by
  have h1 : takeDigits (ds ++ junk) = (ds, junk) :=
    takeDigits_split ds junk hds (startsNumeric_false_headDigit junk hjunk)
  have hfs0 : (if junk.head? = some '.' then (takeDigits junk.tail).1 else []) = [] := by
    cases junk with
    | nil => rfl
    | cons j t =>
      by_cases hj : j = '.'
      · subst hj
        simp only [startsNumeric, Bool.or_eq_false_iff, Bool.and_eq_false_iff] at hjunk
        have ht : headDigit t = false := by
          rcases hjunk.2 with h | h
          · simp at h
          · exact h
        rw [List.head?_cons, if_pos rfl, List.tail_cons]
        cases t with
        | nil => rfl
        | cons d t2 =>
          rw [headDigit] at ht
          simp [takeDigits, ht]
      · rw [List.head?_cons, if_neg (by simp [hj])]
  have hcond : ¬(ds = [] ∧ ([] : List Char) = []) := fun hh => hne hh.1
  simp only [parseWeight, hsp]
  simp only [h1]
  rw [hfs0, if_neg hcond]
  rw [show fracVal [] = (0 : ℚ) from rfl, add_zero]

/-- C8: text with no valid numeric prefix parses to weight 0, with no
error signalled (the parser is a total function); for text with a valid
numeric prefix — an optional sign, digits, an optional decimal point and
fractional digits — trailing non-numeric content is ignored, both with
and without the decimal point. -/
theorem c8_parse_tolerance (s sgn ds fs junk : List Char) :
    (numericStart s = false → parseWeight s = 0) ∧
    ((sgn = [] ∨ sgn = ['+'] ∨ sgn = ['-']) →
      (∀ c ∈ ds, isDigitCh c = true) → (∀ c ∈ fs, isDigitCh c = true) →
      (ds ≠ [] ∨ fs ≠ []) → headDigit junk = false →
      parseWeight (sgn ++ ds ++ '.' :: (fs ++ junk)) =
        (if sgn = ['-'] then (-1 : ℚ) else 1) * (intVal ds + fracVal fs)) ∧
    ((sgn = [] ∨ sgn = ['+'] ∨ sgn = ['-']) →
      (∀ c ∈ ds, isDigitCh c = true) → ds ≠ [] →
      startsNumeric junk = false →
      parseWeight (sgn ++ ds ++ junk) =
        (if sgn = ['-'] then (-1 : ℚ) else 1) * intVal ds) := by
  refine ⟨?_, ?_, ?_⟩
  · intro h0
    rw [numericStart] at h0
    simp only [parseWeight]
    rcases hsp : splitSign s with ⟨neg0, r⟩
    rw [hsp] at h0
    dsimp only at h0 ⊢
    cases r with
    | nil => simp [takeDigits]
    | cons c t =>
      simp only [startsNumeric, Bool.or_eq_false_iff, Bool.and_eq_false_iff] at h0
      obtain ⟨hcd, hrest⟩ := h0
      by_cases hc : c = '.'
      · subst hc
        have ht : headDigit t = false := by
          rcases hrest with h | h
          · simp at h
          · exact h
        cases t with
        | nil => simp [takeDigits, hcd]
        | cons d t2 =>
          rw [headDigit] at ht
          simp [takeDigits, hcd, ht]
      · simp [takeDigits, hcd, hc]
  · intro hsgn hds hfs hne hjunk
    have hhead : ∀ c ∈ (ds ++ '.' :: (fs ++ junk)).head?, c ≠ '-' ∧ c ≠ '+' := by
      cases ds with
      | nil =>
        intro c hc
        simp only [List.nil_append, List.head?_cons, Option.mem_def,
          Option.some.injEq] at hc
        subst hc
        exact ⟨by decide, by decide⟩
      | cons d dt =>
        intro c hc
        simp only [List.cons_append, List.head?_cons, Option.mem_def,
          Option.some.injEq] at hc
        subst hc
        exact digit_not_sign d (hds d (List.mem_cons_self d dt))
    have hsp := splitSign_sign sgn (ds ++ '.' :: (fs ++ junk)) hsgn hhead
    have h := parse_after_sign_dotted (sgn ++ (ds ++ '.' :: (fs ++ junk)))
      (decide (sgn = ['-'])) ds fs junk hsp hds hfs hne hjunk
    rw [List.append_assoc]
    simpa only [decide_eq_true_eq] using h
  · intro hsgn hds hne hjunk
    have hhead : ∀ c ∈ (ds ++ junk).head?, c ≠ '-' ∧ c ≠ '+' := by
      cases ds with
      | nil => exact absurd rfl hne
      | cons d dt =>
        intro c hc
        simp only [List.cons_append, List.head?_cons, Option.mem_def,
          Option.some.injEq] at hc
        subst hc
        exact digit_not_sign d (hds d (List.mem_cons_self d dt))
    have hsp := splitSign_sign sgn (ds ++ junk) hsgn hhead
    have h := parse_after_sign_plain (sgn ++ (ds ++ junk))
      (decide (sgn = ['-'])) ds junk hsp hds hne hjunk
    rw [List.append_assoc]
    simpa only [decide_eq_true_eq] using h

/-- Witness for the carriage-return stripping theorem on the concrete
line `"50\r\n"`. -/
theorem c4_cr_stripping_witness :
    (∀ b ∈ (['5', '0', cr] : List Char), b ≠ lf ∧ b ≠ nul) ∧
    (['5', '0', cr] : List Char).length ≤ 41 ∧
    (run (['5', '0', cr] ++ [lf])).lines =
      [if (['5', '0', cr] : List Char).getLast? = some cr
        then (['5', '0', cr] : List Char).dropLast else ['5', '0', cr]] :=
  ⟨by decide, by decide, c4_cr_stripping ['5', '0', cr] (by decide) (by decide)⟩

/-- Witness for the parser theorem: the unparseable text `"N?"`, the
dotted text `"-50.1g"` with trailing junk, and the dot-free text
`"5000 g"` with trailing junk. -/
theorem c8_parse_tolerance_witness :
    numericStart ['N', '?'] = false ∧
    parseWeight ['N', '?'] = 0 ∧
    parseWeight (['-'] ++ ['5', '0'] ++ '.' :: (['1'] ++ ['g'])) =
      (if (['-'] : List Char) = ['-'] then (-1 : ℚ) else 1) *
        (intVal ['5', '0'] + fracVal ['1']) ∧
    startsNumeric [' ', 'g'] = false ∧
    parseWeight (([] : List Char) ++ ['5', '0', '0', '0'] ++ [' ', 'g']) =
      (if ([] : List Char) = ['-'] then (-1 : ℚ) else 1) * intVal ['5', '0', '0', '0'] :=
  ⟨by decide,
    (c8_parse_tolerance ['N', '?'] [] [] [] []).1 (by decide),
    (c8_parse_tolerance ['N', '?'] ['-'] ['5', '0'] ['1'] ['g']).2.1
      (Or.inr (Or.inr rfl)) (by decide) (by decide) (Or.inl (by decide)) (by decide),
    by decide,
    (c8_parse_tolerance ['N', '?'] [] ['5', '0', '0', '0'] [] [' ', 'g']).2.2
      (Or.inl rfl) (by decide) (by decide) (by decide)⟩

/-- Witness for the reset theorem at the first ever received byte being
a line feed. -/
theorem c9_reset_after_emit_witness :
    ((step la_init lf).emitted).isSome = true ∧
    ((step la_init lf).state.num = 0 ∧ cStr (step la_init lf).state.mem = []) :=
  ⟨by decide, c9_reset_after_emit la_init lf (by decide)⟩

/-- Witness for the truncation theorem at a concrete full buffer holding
42 characters, with `'B'` as the discarded triggering byte. -/
theorem c10_truncation_discard_witness :
    ('B' ≠ lf) ∧
    (⟨List.replicate 42 'A' ++ [nul], 42⟩ : LAState).num = maxChars ∧
    (step (⟨List.replicate 42 'A' ++ [nul], 42⟩ : LAState) 'B' =
        step (⟨List.replicate 42 'A' ++ [nul], 42⟩ : LAState) lf ∧
      (step (⟨List.replicate 42 'A' ++ [nul], 42⟩ : LAState) 'B').emitted =
        some (finalizeBuf ((⟨List.replicate 42 'A' ++ [nul], 42⟩ : LAState).mem)).1 ∧
      processLine (((step (⟨List.replicate 42 'A' ++ [nul], 42⟩ : LAState) 'B').emitted).getD []) =
        processLine (((step (⟨List.replicate 42 'A' ++ [nul], 42⟩ : LAState) lf).emitted).getD []) ∧
      (step (⟨List.replicate 42 'A' ++ [nul], 42⟩ : LAState) 'B').state.num = 0 ∧
      cStr (step (⟨List.replicate 42 'A' ++ [nul], 42⟩ : LAState) 'B').state.mem = []) :=
  ⟨by decide, by decide,
    c10_truncation_discard ⟨List.replicate 42 'A' ++ [nul], 42⟩ 'B' (by decide) (by decide)⟩

end SerialWeight
